import Mathlib

/-!
Verification of the `casodepolicia` repository (HTML link/file cleaning scripts).

The development shallowly embeds the two Python scripts:
  * `py_limpa_links-extensao.py` — class `FileRenamer`: `remove_accents`,
    `clean_filename`, `create_rename_map`, `check_conflicts`,
    `resolve_conflicts`, `perform_renames`, `update_references`.
  * `py_limpa_links.py` — class `LinkCleaner`: `clean_url` and its helpers
    `clean_special_characters`, `remove_accents`.

Strings are modelled as `List Char` (Python `str` is a sequence of Unicode
code points).  Machine-library calls made by the scripts
(`os.path.splitext`, `unicodedata.normalize('NFD', ·)`,
`unicodedata.combining`, `urllib.parse.unquote`, `str.lower`,
`re.sub` on the concrete patterns used, `str.replace`, `str.strip('-')`)
are embedded as executable Lean functions, faithful on the character
repertoire the scripts operate on; each carries a doc comment stating the
modelling decision.  The single folder the scripts work in lets a file be
identified with its basename, so paths are basenames throughout.
-/

/-- A Python string: a list of Unicode code points. -/
abbrev Name := List Char

/-- Characters kept by `re.sub(r'[^a-zA-Z0-9\-_]', '', name)` in
`FileRenamer.clean_filename`: ASCII letters, digits, hyphen, underscore. -/
def isAllowedF (c : Char) : Bool :=
  decide ((97 ≤ c.toNat ∧ c.toNat ≤ 122) ∨ (65 ≤ c.toNat ∧ c.toNat ≤ 90) ∨
    (48 ≤ c.toNat ∧ c.toNat ≤ 57) ∨ c.toNat = 45 ∨ c.toNat = 95)

/-- Characters kept by `re.sub(r'[^a-zA-Z0-9\-\._/]', '', text)` in
`LinkCleaner.clean_special_characters`: additionally dot and slash. -/
def isAllowedU (c : Char) : Bool :=
  decide ((97 ≤ c.toNat ∧ c.toNat ≤ 122) ∨ (65 ≤ c.toNat ∧ c.toNat ≤ 90) ∨
    (48 ≤ c.toNat ∧ c.toNat ≤ 57) ∨ c.toNat = 45 ∨ c.toNat = 46 ∨
    c.toNat = 47 ∨ c.toNat = 95)

/-- The character class matched by Python's `\s` on `str` (Unicode mode):
ASCII whitespace, the C1 separators U+001C–U+001F, NEL, NBSP and the
Unicode space separators. -/
def pySpace (c : Char) : Bool :=
  decide ((9 ≤ c.toNat ∧ c.toNat ≤ 13) ∨ (28 ≤ c.toNat ∧ c.toNat ≤ 32) ∨
    c.toNat = 0x85 ∨ c.toNat = 0xA0 ∨ c.toNat = 0x1680 ∨
    (0x2000 ≤ c.toNat ∧ c.toNat ≤ 0x200A) ∨ c.toNat = 0x2028 ∨
    c.toNat = 0x2029 ∨ c.toNat = 0x202F ∨ c.toNat = 0x3000)

/-- Python `str.lower()`, restricted to its action on ASCII.  Both scripts
apply `.lower()` only after the character-removal regex, whose output
alphabet is ASCII `[a-zA-Z0-9\-._/]`, where Unicode lowercasing and ASCII
lowercasing agree. -/
def lowerChar (c : Char) : Char :=
  if 65 ≤ c.toNat ∧ c.toNat ≤ 90 then Char.ofNat (c.toNat + 32) else c

/-- Python `str.lower()` over a whole string. -/
def py_lower (s : Name) : Name := s.map lowerChar

/-- Python `unicodedata.combining(c) != 0`, restricted to the Combining
Diacritical Marks block U+0300–U+036F, which covers every combining mark
producible by NFD on the Latin letters the repository handles. -/
def combiningMark (c : Char) : Bool :=
  decide (0x300 ≤ c.toNat ∧ c.toNat ≤ 0x36F)

/-- Canonical (NFD) decompositions of the accented Latin-1 letters the
repository's data uses (Portuguese letters, both cases).  Real NFD has no
decompositions below U+00C0, so the fallthrough identity is exact there. -/
def nfdTable : List (Char × List Char) :=
  [('À', ['A', Char.ofNat 0x300]), ('Á', ['A', Char.ofNat 0x301]),
   ('Â', ['A', Char.ofNat 0x302]), ('Ã', ['A', Char.ofNat 0x303]),
   ('Ä', ['A', Char.ofNat 0x308]), ('Ç', ['C', Char.ofNat 0x327]),
   ('È', ['E', Char.ofNat 0x300]), ('É', ['E', Char.ofNat 0x301]),
   ('Ê', ['E', Char.ofNat 0x302]), ('Ì', ['I', Char.ofNat 0x300]),
   ('Í', ['I', Char.ofNat 0x301]), ('Ò', ['O', Char.ofNat 0x300]),
   ('Ó', ['O', Char.ofNat 0x301]), ('Ô', ['O', Char.ofNat 0x302]),
   ('Õ', ['O', Char.ofNat 0x303]), ('Ö', ['O', Char.ofNat 0x308]),
   ('Ù', ['U', Char.ofNat 0x300]), ('Ú', ['U', Char.ofNat 0x301]),
   ('Ü', ['U', Char.ofNat 0x308]), ('à', ['a', Char.ofNat 0x300]),
   ('á', ['a', Char.ofNat 0x301]), ('â', ['a', Char.ofNat 0x302]),
   ('ã', ['a', Char.ofNat 0x303]), ('ä', ['a', Char.ofNat 0x308]),
   ('ç', ['c', Char.ofNat 0x327]), ('è', ['e', Char.ofNat 0x300]),
   ('é', ['e', Char.ofNat 0x301]), ('ê', ['e', Char.ofNat 0x302]),
   ('ì', ['i', Char.ofNat 0x300]), ('í', ['i', Char.ofNat 0x301]),
   ('ò', ['o', Char.ofNat 0x300]), ('ó', ['o', Char.ofNat 0x301]),
   ('ô', ['o', Char.ofNat 0x302]), ('õ', ['o', Char.ofNat 0x303]),
   ('ö', ['o', Char.ofNat 0x308]), ('ù', ['u', Char.ofNat 0x300]),
   ('ú', ['u', Char.ofNat 0x301]), ('ü', ['u', Char.ofNat 0x308])]

/-- Python `unicodedata.normalize('NFD', ·)` on a single code point (identity off
the table above; exact for all code points below U+00C0). -/
def nfdChar (c : Char) : List Char :=
  if c.toNat < 0xC0 then [c]
  else ((nfdTable.find? (fun p => p.1 == c)).map Prod.snd).getD [c]

/-- Embeds `FileRenamer.remove_accents` / `LinkCleaner.remove_accents`:
NFD-normalize, then drop all combining marks. -/
def remove_accents (s : Name) : Name :=
  (s.flatMap nfdChar).filter (fun c => !(combiningMark c))

/-- Python `re.sub(r'\s+', '-', s)`: each maximal run of whitespace becomes a
single hyphen.  The flag records whether the previous character was
whitespace (i.e. whether we are inside a run). -/
def squashSpacesGo (s : Name) (inRun : Bool) : Name :=
  match s with
  | [] => []
  | c :: rest =>
    if pySpace c then
      if inRun then squashSpacesGo rest true
      else '-' :: squashSpacesGo rest true
    else c :: squashSpacesGo rest false

/-- Python `re.sub(r'\s+', '-', s)` at the top level. -/
def squashSpaces (s : Name) : Name := squashSpacesGo s false

/-- Python `re.sub(r'-+', '-', s)`: collapse each run of hyphens to one.  The
flag records whether the previous character was a hyphen. -/
def collapseHyphensGo (s : Name) (inRun : Bool) : Name :=
  match s with
  | [] => []
  | c :: rest =>
    if c = '-' then
      if inRun then collapseHyphensGo rest true
      else '-' :: collapseHyphensGo rest true
    else c :: collapseHyphensGo rest false

/-- Python `re.sub(r'-+', '-', s)` at the top level. -/
def collapseHyphens (s : Name) : Name := collapseHyphensGo s false

/-- Remove trailing hyphens (the right half of Python `str.strip('-')`). -/
def dropTrailingHyphens (s : Name) : Name :=
  match s with
  | [] => []
  | c :: rest =>
    match dropTrailingHyphens rest with
    | [] => if c = '-' then [] else [c]
    | r => c :: r

/-- Python `str.strip('-')`: remove leading and trailing hyphens. -/
def stripHyphens (s : Name) : Name :=
  dropTrailingHyphens (s.dropWhile (fun c => c == '-'))

/-- A character at which the right-to-left scan of `os.path.splitext`
stops: a dot (extension candidate) or a path separator. -/
def extChar (c : Char) : Bool := c != '.' && c != '/'

/-- Branch selection of `os.path.splitext` once the scan from the right
has found a stop character (`rest` is the remainder of the reversed
string, `pre` the reversed candidate extension body, `s` the input).  An
extension exists only when the stop character is a dot and at least one
non-dot character stands between it and the previous separator (CPython's
leading-dot rule for dotfiles). -/
def splitextAux (rest pre : Name) (s : Name) : Name × Name :=
  match rest with
  | d :: before =>
    if d = '.' ∧
        (before.takeWhile (fun c => c != '/')).any (fun c => c != '.') then
      (before.reverse, '.' :: pre.reverse)
    else (s, [])
  | [] => (s, [])

/-- Python `os.path.splitext` (POSIX): split off the extension at the last dot
that lies after the last slash, unless every character between that slash
and the dot is itself a dot. -/
def splitext (s : Name) : Name × Name :=
  splitextAux (s.reverse.dropWhile extChar) (s.reverse.takeWhile extChar) s

/-- The stem pipeline of `FileRenamer.clean_filename`: accents removed,
whitespace runs to hyphens, disallowed characters removed, hyphen runs
collapsed, edge hyphens stripped, lowercased. -/
def clean_stem (s : Name) : Name :=
  py_lower (stripHyphens (collapseHyphens ((squashSpaces
    (remove_accents s)).filter isAllowedF)))

/-- Embeds `FileRenamer.clean_filename`: split into stem and extension with
`os.path.splitext`, clean the stem, re-append the extension verbatim. -/
def clean_filename (s : Name) : Name :=
  let p := splitext s
  clean_stem p.1 ++ p.2

/-- The value of a hexadecimal digit character, if it is one. -/
def hexVal (c : Char) : Option Nat :=
  if 48 ≤ c.toNat ∧ c.toNat ≤ 57 then some (c.toNat - 48)
  else if 97 ≤ c.toNat ∧ c.toNat ≤ 102 then some (c.toNat - 87)
  else if 65 ≤ c.toNat ∧ c.toNat ≤ 70 then some (c.toNat - 55)
  else none

/-- UTF-8 decoding of a byte sequence with U+FFFD replacement on error,
as performed by `urllib.parse.unquote`'s default `errors='replace'`
(simplified: one replacement character per rejected byte group, and no
overlong-encoding check, which no claim exercises).  The fuel argument,
instantiated with the length of the byte list, keeps the recursion
structural; every step consumes at least one byte, so it never runs out. -/
def utf8decF (fuel : Nat) (bs : List Nat) : List Char :=
  match fuel, bs with
  | 0, _ => []
  | _ + 1, [] => []
  | f + 1, b :: rest =>
    if b < 0x80 then Char.ofNat b :: utf8decF f rest
    else if 0xC2 ≤ b ∧ b ≤ 0xDF then
      match rest with
      | b2 :: r2 =>
        if 0x80 ≤ b2 ∧ b2 ≤ 0xBF then
          Char.ofNat ((b - 0xC0) * 64 + (b2 - 0x80)) :: utf8decF f r2
        else Char.ofNat 0xFFFD :: utf8decF f rest
      | [] => [Char.ofNat 0xFFFD]
    else if 0xE0 ≤ b ∧ b ≤ 0xEF then
      match rest with
      | b2 :: b3 :: r3 =>
        if (0x80 ≤ b2 ∧ b2 ≤ 0xBF) ∧ (0x80 ≤ b3 ∧ b3 ≤ 0xBF) then
          let n := (b - 0xE0) * 4096 + (b2 - 0x80) * 64 + (b3 - 0x80)
          if 0xD800 ≤ n ∧ n ≤ 0xDFFF then Char.ofNat 0xFFFD :: utf8decF f r3
          else Char.ofNat n :: utf8decF f r3
        else Char.ofNat 0xFFFD :: utf8decF f rest
      | _ => [Char.ofNat 0xFFFD]
    else if 0xF0 ≤ b ∧ b ≤ 0xF4 then
      match rest with
      | b2 :: b3 :: b4 :: r4 =>
        if (0x80 ≤ b2 ∧ b2 ≤ 0xBF) ∧ (0x80 ≤ b3 ∧ b3 ≤ 0xBF) ∧
            (0x80 ≤ b4 ∧ b4 ≤ 0xBF) then
          let n := (b - 0xF0) * 262144 + (b2 - 0x80) * 4096 +
            (b3 - 0x80) * 64 + (b4 - 0x80)
          if n ≤ 0x10FFFF then Char.ofNat n :: utf8decF f r4
          else Char.ofNat 0xFFFD :: utf8decF f r4
        else Char.ofNat 0xFFFD :: utf8decF f rest
      | _ => [Char.ofNat 0xFFFD]
    else Char.ofNat 0xFFFD :: utf8decF f rest

/-- UTF-8 decoding with replacement, at the top level. -/
def utf8dec (bs : List Nat) : List Char := utf8decF bs.length bs

/-- Python `urllib.parse.unquote`, body: each maximal run of valid `%XX` escapes
is decoded as a UTF-8 byte sequence (`acc` holds the bytes of the current
run); everything else, including malformed escapes, passes through
verbatim.  Fueled by the string length to keep the recursion structural;
every step consumes at least one character. -/
def unquoteGo (fuel : Nat) (s : Name) (acc : List Nat) : Name :=
  match fuel, s with
  | 0, _ => utf8dec acc
  | _ + 1, [] => utf8dec acc
  | f + 1, c :: rest =>
    if c = '%' then
      match rest with
      | h :: l :: r2 =>
        match hexVal h, hexVal l with
        | some a, some b => unquoteGo f r2 (acc ++ [a * 16 + b])
        | _, _ => utf8dec acc ++ '%' :: unquoteGo f rest []
      | _ => utf8dec acc ++ '%' :: unquoteGo f rest []
    else utf8dec acc ++ c :: unquoteGo f rest []

/-- Python `urllib.parse.unquote`. -/
def unquote (s : Name) : Name := unquoteGo s.length s []

/-- Embeds `LinkCleaner.clean_special_characters`: whitespace runs to hyphens,
remove characters outside `[a-zA-Z0-9\-._/]`, collapse hyphen runs,
strip edge hyphens. -/
def clean_special_characters (s : Name) : Name :=
  stripHyphens (collapseHyphens ((squashSpaces s).filter isAllowedU))

/-- Embeds `LinkCleaner.clean_url`: percent-decode, remove accents, clean
special characters, lowercase. -/
def clean_url (s : Name) : Name :=
  py_lower (clean_special_characters (remove_accents (unquote s)))

/-- One entry of `FileRenamer.rename_map`.  The scripts operate in a
single folder, so `old_path`/`new_path` are determined by
`old_name`/`new_name` and are not duplicated here; the dict key
`str(old_path)` is likewise determined by `old_name`. -/
structure RenameEntry where
  old_name : Name
  new_name : Name
  referenced : Bool
deriving DecidableEq, Repr

/-- Embeds `FileRenamer.create_rename_map`, given the referenced filenames (in
encounter order) and the physical HTML filenames on disk (excluding
`index.html`, as scanned by `scan_html_files`; membership models
`original_path.exists()`).  First pass: referenced files that exist and
whose cleaned name differs; second pass: remaining physical files whose
cleaned name differs and that are not already keyed in the map. -/
def create_rename_map (referenced physical : List Name) : List RenameEntry :=
  let phase1 := (referenced.filter
      (fun r => decide (r ∈ physical) && decide (clean_filename r ≠ r))).map
    (fun r => RenameEntry.mk r (clean_filename r) true)
  let phase2 := (physical.filter
      (fun f => decide (clean_filename f ≠ f) &&
        decide (∀ e ∈ phase1, e.old_name ≠ f))).map
    (fun f => RenameEntry.mk f (clean_filename f) false)
  phase1 ++ phase2

/-- One conflict reported by `FileRenamer.check_conflicts`. -/
structure Conflict where
  new_name : Name
  conflicting_files : List Name
deriving DecidableEq, Repr

/-- Loop of `FileRenamer.check_conflicts`: `seen` is the `new_names`
dict, mapping each new name already encountered to the old name of the
entry that introduced it (keys are distinct, so cons order is
immaterial to lookup).  Each later entry colliding on a seen new name
produces one two-element conflict `[first_old, this_old]`. -/
def check_conflicts_go (entries : List RenameEntry)
    (seen : List (Name × Name)) : List Conflict :=
  match entries with
  | [] => []
  | e :: rest =>
    match seen.lookup e.new_name with
    | some firstOld =>
      Conflict.mk e.new_name [firstOld, e.old_name] ::
        check_conflicts_go rest seen
    | none => check_conflicts_go rest ((e.new_name, e.old_name) :: seen)

/-- Embeds `FileRenamer.check_conflicts`. -/
def check_conflicts (entries : List RenameEntry) : List Conflict :=
  check_conflicts_go entries []

/-- Update in place the first map entry whose `old_name` matches
(the inner `for old_path, rename_info in self.rename_map.items(): ...
break` loop of `resolve_conflicts`). -/
def setNewNameByOld (entries : List RenameEntry) (old nn : Name) :
    List RenameEntry :=
  match entries with
  | [] => []
  | e :: rest =>
    if e.old_name = old then RenameEntry.mk e.old_name nn e.referenced :: rest
    else e :: setNewNameByOld rest old nn

/-- Inner loop of `FileRenamer.resolve_conflicts`:
`for i, old_filename in enumerate(conflicting_files[1:], 2)`, assigning
`f"{name}-{i}{ext}"` to the matching entry. -/
def assignSuffixes (stem ext : Name) (olds : List Name) (i : Nat)
    (entries : List RenameEntry) : List RenameEntry :=
  match olds with
  | [] => entries
  | old :: rest =>
    assignSuffixes stem ext rest (i + 1)
      (setNewNameByOld entries old (stem ++ '-' :: Nat.toDigits 10 i ++ ext))

/-- Embeds `FileRenamer.resolve_conflicts` applied to one conflict. -/
def resolve_one (entries : List RenameEntry) (c : Conflict) :
    List RenameEntry :=
  let p := splitext c.new_name
  assignSuffixes p.1 p.2 (c.conflicting_files.drop 1) 2 entries

/-- Embeds `FileRenamer.resolve_conflicts`. -/
def resolve_conflicts (conflicts : List Conflict)
    (entries : List RenameEntry) : List RenameEntry :=
  conflicts.foldl resolve_one entries

/-- One record of the `successful_renames` list built by
`FileRenamer.perform_renames`. -/
structure RenameResult where
  old : Name
  new : Name
  referenced : Bool
deriving DecidableEq, Repr

/-- The two per-entry failure modes of `FileRenamer.perform_renames`
(the appended error strings name the offending path). -/
inductive ApplyError where
  | sourceMissing (path : Name)
  | destinationExists (path : Name)
deriving DecidableEq, Repr

/-- Outcome of `FileRenamer.perform_renames`: the folder contents, whether
the backup folder was created, the files copied into it, the successful
renames and the accumulated errors. -/
structure ApplyResult where
  fs : List Name
  backupCreated : Bool
  backups : List Name
  successes : List RenameResult
  errors : List ApplyError
deriving DecidableEq, Repr

/-- Loop of `FileRenamer.perform_renames` over the plan entries, in plan
order.  `fs` is the list of filenames in the folder (membership models
`Path.exists`); a rename removes the old name and adds the new one.  A
missing source or an occupied distinct destination records an error and
skips the entry; the loop always continues with the remaining entries. -/
def perform_renames_go (entries : List RenameEntry) (backup : Bool)
    (fs : List Name) (backups : List Name) (succ : List RenameResult)
    (errs : List ApplyError) : ApplyResult :=
  match entries with
  | [] => ApplyResult.mk fs backup backups succ errs
  | e :: rest =>
    if e.old_name ∉ fs then
      perform_renames_go rest backup fs backups succ
        (errs ++ [ApplyError.sourceMissing e.old_name])
    else if e.new_name ∈ fs ∧ e.new_name ≠ e.old_name then
      perform_renames_go rest backup fs backups succ
        (errs ++ [ApplyError.destinationExists e.new_name])
    else
      perform_renames_go rest backup
        (fs.erase e.old_name ++ [e.new_name])
        (if backup then backups ++ [e.old_name] else backups)
        (succ ++ [RenameResult.mk e.old_name e.new_name e.referenced])
        errs

/-- Embeds `FileRenamer.perform_renames`: an empty plan returns immediately
(no backup folder, no filesystem change); otherwise the backup folder is
created first when requested, then the entries are processed in order. -/
def perform_renames (fs : List Name) (entries : List RenameEntry)
    (backup : Bool) : ApplyResult :=
  if entries = [] then ApplyResult.mk fs false [] [] []
  else perform_renames_go entries backup fs [] [] []

/-- Python `str.replace` with a nonempty pattern `p :: pt`: scan left to
right, replacing each leftmost non-overlapping occurrence.  Fueled by the
string length to keep the recursion structural; each step consumes at
least one character. -/
def replGo (fuel : Nat) (p : Char) (pt repl : Name) (s : Name) : Name :=
  match fuel, s with
  | 0, s => s
  | _ + 1, [] => []
  | f + 1, c :: rest =>
    if (p :: pt).isPrefixOf (c :: rest) then
      repl ++ replGo f p pt repl (rest.drop pt.length)
    else c :: replGo f p pt repl rest

/-- Python `str.replace(pat, repl)` (replace all occurrences).  The empty
pattern inserts `repl` at every position, as Python does; the scripts
only ever pass nonempty patterns. -/
def replaceAll (s pat repl : Name) : Name :=
  match pat with
  | [] => repl ++ s.flatMap (fun c => c :: repl)
  | p :: pt => replGo s.length p pt repl s

/-- The literal `href="old"` pattern built by
`FileRenamer.update_references` (double-quoted form). -/
def hrefDq (n : Name) : Name := "href=\"".toList ++ n ++ ['"']

/-- The literal `href='old'` pattern (single-quoted form). -/
def hrefSq (n : Name) : Name := "href='".toList ++ n ++ ['\'']

/-- The `index.html` half of `FileRenamer.update_references`: for each
successful rename, in order, replace every `href="old"` and every
`href='old'` occurrence in the document text. -/
def update_index (content : Name) (renames : List RenameResult) : Name :=
  renames.foldl
    (fun c r =>
      replaceAll (replaceAll c (hrefDq r.old) (hrefDq r.new))
        (hrefSq r.old) (hrefSq r.new))
    content

/-- Python's substring test `pat in s`. -/
def hasSubstring (pat : Name) (s : Name) : Bool :=
  match s with
  | [] => pat.isEmpty
  | _ :: rest => pat.isPrefixOf s || hasSubstring pat rest

/-- Per-`<loc>` body of the sitemap half of `update_references`: iterate
the successful renames over the element text; whenever the old name
occurs in the current text, replace all its occurrences and record (in
the script's `updated` flag, threaded here as `u`) that a substitution
happened. -/
def loc_apply_go (renames : List RenameResult) (t : Name) (u : Bool) :
    Name × Bool :=
  match renames with
  | [] => (t, u)
  | r :: rest =>
    if hasSubstring r.old t then
      loc_apply_go rest (replaceAll t r.old r.new) true
    else loc_apply_go rest t u

/-- All renames applied to one `<loc>` text. -/
def loc_apply (renames : List RenameResult) (t : Name) : Name × Bool :=
  loc_apply_go renames t false

/-- One scan of a list of `<loc>` texts (either the namespaced pass or
the namespace-free fallback pass), accumulating the updated texts and
whether any substitution occurred. -/
def sitemap_pass_go (renames : List RenameResult) (locs : List Name)
    (acc : List Name) (u : Bool) : List Name × Bool :=
  match locs with
  | [] => (acc, u)
  | t :: rest =>
    let r := loc_apply renames t
    sitemap_pass_go renames rest (acc ++ [r.1]) (u || r.2)

/-- One scan of a list of `<loc>` texts at the top level. -/
def sitemap_pass (locs : List Name) (renames : List RenameResult) :
    List Name × Bool :=
  sitemap_pass_go renames locs [] false

/-- The sitemap half of `FileRenamer.update_references`: scan the
namespaced `<loc>` elements; only if none of them was updated, scan the
namespace-free ones.  The final flag is `updated`: the document is
written back to disk iff it is true. -/
def update_sitemap (nsLocs plainLocs : List Name)
    (renames : List RenameResult) : List Name × List Name × Bool :=
  let ns := sitemap_pass nsLocs renames
  if ns.2 then (ns.1, plainLocs, true)
  else
    let pl := sitemap_pass plainLocs renames
    (ns.1, pl.1, pl.2)

/-- The state a run reads and mutates: the folder's HTML filenames
(excluding `index.html`), the text of `index.html`, and the `<loc>` texts
of `sitemap.xml` (namespaced and namespace-free). -/
structure SiteState where
  fs : List Name
  index : Name
  nsLocs : List Name
  plainLocs : List Name
deriving DecidableEq, Repr

/-- Embeds `FileRenamer.run`, on the path where every interactive prompt is
answered yes: build the rename map, detect and resolve conflicts, and if
the map is empty return before touching anything (the returned flag says
whether the mutation phase ran); otherwise perform the renames and
rewrite the references. -/
def run_model (referenced : List Name) (st : SiteState) (backup : Bool) :
    SiteState × Bool :=
  let m := create_rename_map referenced st.fs
  let m2 := resolve_conflicts (check_conflicts m) m
  if m2 = [] then (st, false)
  else
    let res := perform_renames st.fs m2 backup
    let idx := update_index st.index res.successes
    let sm := update_sitemap st.nsLocs st.plainLocs res.successes
    (SiteState.mk res.fs idx sm.1 sm.2.1, true)

/-- Characters allowed in a fully cleaned filename stem:
lowercase ASCII letters, digits, hyphen, underscore. -/
def isCleanChar (c : Char) : Bool :=
  decide ((97 ≤ c.toNat ∧ c.toNat ≤ 122) ∨ (48 ≤ c.toNat ∧ c.toNat ≤ 57) ∨
    c.toNat = 45 ∨ c.toNat = 95)

/-- Characters allowed in a fully cleaned URL:
additionally dot and slash. -/
def isCleanUChar (c : Char) : Bool :=
  decide ((97 ≤ c.toNat ∧ c.toNat ≤ 122) ∨ (48 ≤ c.toNat ∧ c.toNat ≤ 57) ∨
    c.toNat = 45 ∨ c.toNat = 46 ∨ c.toNat = 47 ∨ c.toNat = 95)

/-- No two consecutive hyphens anywhere in the string. -/
def noDoubleHyphen : Name → Bool
  | [] => true
  | [_] => true
  | c :: d :: rest => !(c == '-' && d == '-') && noDoubleHyphen (d :: rest)

/-- The string does not start with a hyphen. -/
def headNotHyphen : Name → Bool
  | [] => true
  | c :: _ => c != '-'

/-- The string does not end with a hyphen. -/
def lastNotHyphen : Name → Bool
  | [] => true
  | [c] => c != '-'
  | _ :: c :: rest => lastNotHyphen (c :: rest)

/-- Predicate: `pat` occurs as a contiguous substring of `s`. -/
def occursIn (pat s : Name) : Prop := ∃ a b, s = a ++ pat ++ b

/-- Modelled from the spec's words, for comparison with the code's
`os.path.splitext`: "Split into (stem, extension) at the last `.`;
extension preserved verbatim" — the extension starting at the last dot,
with no dotfile exception. -/
def spec_ext_last_dot (s : Name) : Name :=
  match s.reverse.dropWhile (fun c => c != '.') with
  | [] => []
  | _ :: _ => '.' :: (s.reverse.takeWhile (fun c => c != '.')).reverse

/-- Three referenced physical files that all clean to `relatorio.html`. -/
def c1Files : List Name :=
  ["Relatório.html".toList, "RELATORIO.html".toList,
   "Relatorio!.html".toList]

/-- Two referenced physical files, the second already clean, both
cleaning to `relatorio.html`. -/
def c4Files : List Name :=
  ["Relatório.html".toList, "relatorio.html".toList]

/-- A folder with two HTML files. -/
def c5Fs : List Name := ["Página.html".toList, "Ação.html".toList]

/-- A three-entry plan whose middle entry's source file does not exist. -/
def c5Plan : List RenameEntry :=
  [RenameEntry.mk "Página.html".toList "pagina.html".toList true,
   RenameEntry.mk "Faltando é.html".toList "faltando-e.html".toList true,
   RenameEntry.mk "Ação.html".toList "acao.html".toList false]

/-- One rename record, as in the spec's reference-consistency example. -/
def c7Rename : RenameResult :=
  RenameResult.mk "Página.html".toList "pagina.html".toList true

/-- An index document with two double-quoted and one single-quoted
reference to `Página.html`. -/
def c7Index : Name :=
  "<a href=\"Página.html\">a</a><a href='Página.html'>b</a><a href=\"Página.html\">c</a>".toList

/-- The index document above after the rewrite. -/
def c7IndexExpected : Name :=
  "<a href=\"pagina.html\">a</a><a href='pagina.html'>b</a><a href=\"pagina.html\">c</a>".toList

/-- A sitemap location entry containing `Página.html` as a substring. -/
def c7Loc : Name := "https://site.com/Página.html".toList

/-- The location entry above after the rewrite. -/
def c7LocExpected : Name := "https://site.com/pagina.html".toList

theorem char_eq_of_toNat_eq {a b : Char} (h : a.toNat = b.toNat) : a = b := by
  have ha := Char.ofNat_toNat a
  rw [← ha, h, Char.ofNat_toNat]

theorem char_toNat_ofNat_lower {n : Nat} (h1 : 97 ≤ n) (h2 : n ≤ 122) :
    (Char.ofNat n).toNat = n := by
  interval_cases n <;> decide

theorem toNat_lowerChar (c : Char) :
    (lowerChar c).toNat =
      if 65 ≤ c.toNat ∧ c.toNat ≤ 90 then c.toNat + 32 else c.toNat := by
  unfold lowerChar
  split_ifs with h
  · exact char_toNat_ofNat_lower (by omega) (by omega)
  · rfl

theorem eq_hyphen_iff_toNat {c : Char} : c = '-' ↔ c.toNat = 45 := by
  constructor
  · intro h; rw [h]; rfl
  · intro h; exact char_eq_of_toNat_eq (by rw [h]; rfl)

theorem lowerChar_hyphen_iff {c : Char} : lowerChar c = '-' ↔ c = '-' := by
  rw [eq_hyphen_iff_toNat (c := lowerChar c), eq_hyphen_iff_toNat,
    toNat_lowerChar]
  split_ifs with h <;> omega

theorem isCleanChar_lowerChar {c : Char} (h : isAllowedF c = true) :
    isCleanChar (lowerChar c) = true := by
  simp only [isAllowedF, decide_eq_true_eq] at h
  simp only [isCleanChar, decide_eq_true_eq, toNat_lowerChar]
  split_ifs with h2 <;> omega

theorem isCleanUChar_lowerChar {c : Char} (h : isAllowedU c = true) :
    isCleanUChar (lowerChar c) = true := by
  simp only [isAllowedU, decide_eq_true_eq] at h
  simp only [isCleanUChar, decide_eq_true_eq, toNat_lowerChar]
  split_ifs with h2 <;> omega

theorem lowerChar_fix {c : Char} (h : ¬(65 ≤ c.toNat ∧ c.toNat ≤ 90)) :
    lowerChar c = c := by
  unfold lowerChar
  exact if_neg h

theorem headNot_collapseGo_true (s : Name) :
    headNotHyphen (collapseHyphensGo s true) = true := by
  induction s with
  | nil => rfl
  | cons c rest ih =>
    by_cases h : c = '-'
    · simpa [collapseHyphensGo, h] using ih
    · simp [collapseHyphensGo, h, headNotHyphen, bne_iff_ne]

theorem noDouble_cons_of_headNot {xs : Name} (c : Char)
    (h1 : headNotHyphen xs = true) (h2 : noDoubleHyphen xs = true) :
    noDoubleHyphen (c :: xs) = true := by
  cases xs with
  | nil => rfl
  | cons d r =>
    have hd : d ≠ '-' := by simpa [headNotHyphen, bne_iff_ne] using h1
    simp [noDoubleHyphen, hd, h2]

theorem noDouble_cons_left {xs : Name} {c : Char} (hc : c ≠ '-')
    (h2 : noDoubleHyphen xs = true) : noDoubleHyphen (c :: xs) = true := by
  cases xs with
  | nil => rfl
  | cons d r => simp [noDoubleHyphen, hc, h2]

theorem noDouble_of_cons {c : Char} {xs : Name}
    (h : noDoubleHyphen (c :: xs) = true) : noDoubleHyphen xs = true := by
  cases xs with
  | nil => rfl
  | cons d r =>
    simp only [noDoubleHyphen, Bool.and_eq_true] at h
    exact h.2

theorem noDouble_collapseGo (s : Name) (b : Bool) :
    noDoubleHyphen (collapseHyphensGo s b) = true := by
  induction s generalizing b with
  | nil => rfl
  | cons c rest ih =>
    by_cases h : c = '-'
    · cases b with
      | true => simpa [collapseHyphensGo, h] using ih true
      | false =>
        simp only [collapseHyphensGo, if_pos h, if_neg Bool.false_ne_true]
        exact noDouble_cons_of_headNot _ (headNot_collapseGo_true rest)
          (ih true)
    · simp only [collapseHyphensGo, if_neg h]
      exact noDouble_cons_left h (ih false)

theorem collapseGo_fix (s : Name) (b : Bool)
    (hb : b = true → headNotHyphen s = true)
    (h : noDoubleHyphen s = true) : collapseHyphensGo s b = s := by
  induction s generalizing b with
  | nil => rfl
  | cons c rest ih =>
    by_cases hc : c = '-'
    · cases b with
      | true =>
        exfalso
        have := hb rfl
        simp [headNotHyphen, bne_iff_ne, hc] at this
      | false =>
        simp only [collapseHyphensGo, if_pos hc, if_neg Bool.false_ne_true]
        have hrest : headNotHyphen rest = true := by
          cases rest with
          | nil => rfl
          | cons d r =>
            simp only [noDoubleHyphen, Bool.and_eq_true] at h
            subst hc
            simpa [headNotHyphen, bne_iff_ne] using h.1
        rw [ih true (fun _ => hrest) (noDouble_of_cons h), hc]
    · simp only [collapseHyphensGo, if_neg hc]
      rw [ih false (by simp) (noDouble_of_cons h)]

theorem mem_collapseGo {c : Char} {s : Name} {b : Bool}
    (h : c ∈ collapseHyphensGo s b) : c ∈ s := by
  induction s generalizing b with
  | nil => simp [collapseHyphensGo] at h
  | cons d rest ih =>
    by_cases hd : d = '-'
    · cases b with
      | true =>
        simp only [collapseHyphensGo, if_pos hd, if_pos rfl] at h
        exact List.mem_cons_of_mem _ (ih h)
      | false =>
        simp only [collapseHyphensGo, if_pos hd,
          if_neg Bool.false_ne_true] at h
        rcases List.mem_cons.mp h with h1 | h1
        · subst hd; exact h1 ▸ List.mem_cons_self _ _
        · exact List.mem_cons_of_mem _ (ih h1)
    · simp only [collapseHyphensGo, if_neg hd] at h
      rcases List.mem_cons.mp h with h1 | h1
      · exact h1 ▸ List.mem_cons_self _ _
      · exact List.mem_cons_of_mem _ (ih h1)

theorem dropTrailing_cons (c : Char) (rest : Name) :
    dropTrailingHyphens (c :: rest) =
      match dropTrailingHyphens rest with
      | [] => if c = '-' then [] else [c]
      | r => c :: r := rfl

theorem dropTrailing_eq_append (s : Name) :
    ∃ t, s = dropTrailingHyphens s ++ t := by
  induction s with
  | nil => exact ⟨[], rfl⟩
  | cons c rest ih =>
    obtain ⟨t0, ht0⟩ := ih
    cases hr : dropTrailingHyphens rest with
    | nil =>
      by_cases hc : c = '-'
      · exact ⟨c :: rest, by rw [dropTrailing_cons, hr, if_pos hc]; rfl⟩
      · refine ⟨rest, ?_⟩
        rw [dropTrailing_cons, hr, if_neg hc]
        rfl
    | cons d r =>
      refine ⟨t0, ?_⟩
      rw [hr] at ht0
      rw [dropTrailing_cons, hr]
      rw [ht0]
      rfl

theorem lastNot_dropTrailing (s : Name) :
    lastNotHyphen (dropTrailingHyphens s) = true := by
  induction s with
  | nil => rfl
  | cons c rest ih =>
    cases hr : dropTrailingHyphens rest with
    | nil =>
      rw [dropTrailing_cons, hr]
      by_cases hc : c = '-'
      · rw [if_pos hc]; rfl
      · rw [if_neg hc]
        simpa [lastNotHyphen, bne_iff_ne] using hc
    | cons d r =>
      rw [hr] at ih
      rw [dropTrailing_cons, hr]
      simpa [lastNotHyphen] using ih

theorem dropTrailing_fix {s : Name} (h : lastNotHyphen s = true) :
    dropTrailingHyphens s = s := by
  induction s with
  | nil => rfl
  | cons c rest ih =>
    cases rest with
    | nil =>
      have hc : c ≠ '-' := by simpa [lastNotHyphen, bne_iff_ne] using h
      simp [dropTrailingHyphens, hc]
    | cons d r =>
      have h2 : lastNotHyphen (d :: r) = true := by
        simpa [lastNotHyphen] using h
      have hD := ih h2
      rw [dropTrailing_cons, hD]

theorem noDouble_append_left {a b : Name}
    (h : noDoubleHyphen (a ++ b) = true) : noDoubleHyphen a = true := by
  induction a with
  | nil => rfl
  | cons x xs ih =>
    cases xs with
    | nil => rfl
    | cons y ys =>
      simp only [List.cons_append, noDoubleHyphen, Bool.and_eq_true] at h ⊢
      exact ⟨h.1, ih (by simpa using h.2)⟩

theorem noDouble_append_right {a b : Name}
    (h : noDoubleHyphen (a ++ b) = true) : noDoubleHyphen b = true := by
  induction a with
  | nil => simpa using h
  | cons x xs ih =>
    apply ih
    exact noDouble_of_cons (by simpa using h)

theorem headNot_of_eq_append {s res t : Name} (h : s = res ++ t)
    (hs : headNotHyphen s = true) : headNotHyphen res = true := by
  cases res with
  | nil => rfl
  | cons c r =>
    rw [h] at hs
    simpa [headNotHyphen] using hs

theorem lastNot_append {a b : Name} (hb : b ≠ []) :
    lastNotHyphen (a ++ b) = lastNotHyphen b := by
  induction a with
  | nil => rfl
  | cons x xs ih =>
    cases hx : xs ++ b with
    | nil =>
      exact absurd (List.append_eq_nil.mp hx).2 hb
    | cons y ys =>
      simp only [List.cons_append, hx, lastNotHyphen]
      rw [← hx, ih]

theorem headNot_dropWhileHyphen (s : Name) :
    headNotHyphen (s.dropWhile (fun c => c == '-')) = true := by
  induction s with
  | nil => rfl
  | cons c rest ih =>
    by_cases hc : c = '-'
    · have hb : (c == '-') = true := by simp [hc]
      simpa [List.dropWhile_cons, hb] using ih
    · have hb : (c == '-') = false := by simp [hc]
      simp [List.dropWhile_cons, hb, headNotHyphen, bne_iff_ne, hc]

theorem dropWhileHyphen_fix {s : Name} (h : headNotHyphen s = true) :
    s.dropWhile (fun c => c == '-') = s := by
  cases s with
  | nil => rfl
  | cons c rest =>
    have hc : c ≠ '-' := by simpa [headNotHyphen, bne_iff_ne] using h
    have hb : (c == '-') = false := by simp [hc]
    simp [List.dropWhile_cons, hb]

theorem headNot_stripHyphens (s : Name) :
    headNotHyphen (stripHyphens s) = true := by
  unfold stripHyphens
  obtain ⟨t, ht⟩ := dropTrailing_eq_append (s.dropWhile (fun c => c == '-'))
  exact headNot_of_eq_append ht (headNot_dropWhileHyphen s)

theorem lastNot_stripHyphens (s : Name) :
    lastNotHyphen (stripHyphens s) = true :=
  lastNot_dropTrailing _

theorem noDouble_stripHyphens {s : Name} (h : noDoubleHyphen s = true) :
    noDoubleHyphen (stripHyphens s) = true := by
  unfold stripHyphens
  have h1 : noDoubleHyphen (s.dropWhile (fun c => c == '-')) = true := by
    have := List.takeWhile_append_dropWhile (fun c => c == '-') s
    exact noDouble_append_right (by rw [this]; exact h)
  obtain ⟨t, ht⟩ := dropTrailing_eq_append (s.dropWhile (fun c => c == '-'))
  exact noDouble_append_left (by rw [← ht]; exact h1)

theorem stripHyphens_fix {s : Name} (h1 : headNotHyphen s = true)
    (h2 : lastNotHyphen s = true) : stripHyphens s = s := by
  unfold stripHyphens
  rw [dropWhileHyphen_fix h1, dropTrailing_fix h2]

theorem mem_stripHyphens {c : Char} {s : Name} (h : c ∈ stripHyphens s) :
    c ∈ s := by
  unfold stripHyphens at h
  obtain ⟨t, ht⟩ := dropTrailing_eq_append (s.dropWhile (fun c => c == '-'))
  have h1 : c ∈ s.dropWhile (fun c => c == '-') := by
    rw [ht]; exact List.mem_append_left _ h
  have := List.takeWhile_append_dropWhile (fun c => c == '-') s
  rw [← this]
  exact List.mem_append_right _ h1

theorem headNot_py_lower {s : Name} (h : headNotHyphen s = true) :
    headNotHyphen (py_lower s) = true := by
  cases s with
  | nil => rfl
  | cons c rest =>
    have hc : c ≠ '-' := by simpa [headNotHyphen, bne_iff_ne] using h
    have : lowerChar c ≠ '-' := fun hl => hc (lowerChar_hyphen_iff.mp hl)
    simpa [py_lower, headNotHyphen, bne_iff_ne] using this

theorem lastNot_py_lower {s : Name} (h : lastNotHyphen s = true) :
    lastNotHyphen (py_lower s) = true := by
  induction s with
  | nil => rfl
  | cons c rest ih =>
    cases rest with
    | nil =>
      have hc : c ≠ '-' := by simpa [lastNotHyphen, bne_iff_ne] using h
      have : lowerChar c ≠ '-' := fun hl => hc (lowerChar_hyphen_iff.mp hl)
      simpa [py_lower, lastNotHyphen, bne_iff_ne] using this
    | cons d r =>
      have h2 : lastNotHyphen (d :: r) = true := by
        simpa [lastNotHyphen] using h
      have := ih h2
      simpa [py_lower, lastNotHyphen] using this

theorem noDouble_py_lower {s : Name} (h : noDoubleHyphen s = true) :
    noDoubleHyphen (py_lower s) = true := by
  induction s with
  | nil => rfl
  | cons c rest ih =>
    cases rest with
    | nil => rfl
    | cons d r =>
      simp only [noDoubleHyphen, Bool.and_eq_true, Bool.not_eq_true',
        Bool.and_eq_false_iff, beq_eq_false_iff_ne] at h
      have h2 := ih h.2
      simp only [py_lower, List.map_cons, noDoubleHyphen, Bool.and_eq_true,
        Bool.not_eq_true', Bool.and_eq_false_iff, beq_eq_false_iff_ne]
      constructor
      · rcases h.1 with h1 | h1
        · exact Or.inl (fun hl => h1 (lowerChar_hyphen_iff.mp hl))
        · exact Or.inr (fun hl => h1 (lowerChar_hyphen_iff.mp hl))
      · simpa [py_lower] using h2

theorem py_lower_fix {s : Name} (h : ∀ c ∈ s, isCleanChar c = true ∨
    isCleanUChar c = true) : py_lower s = s := by
  unfold py_lower
  rw [List.map_congr_left (g := id), List.map_id]
  intro c hc
  have := h c hc
  apply lowerChar_fix
  rcases this with h1 | h1 <;>
    [simp only [isCleanChar, decide_eq_true_eq] at h1;
     simp only [isCleanUChar, decide_eq_true_eq] at h1] <;> omega

theorem squashGo_fix {s : Name} (h : ∀ c ∈ s, pySpace c = false) :
    squashSpacesGo s false = s := by
  induction s with
  | nil => rfl
  | cons c rest ih =>
    have hc : ¬ (pySpace c = true) := by
      simp [h c (List.mem_cons_self _ _)]
    have hcons : squashSpacesGo (c :: rest) false =
        if pySpace c then
          (if false = true then squashSpacesGo rest true
            else '-' :: squashSpacesGo rest true)
        else c :: squashSpacesGo rest false := rfl
    rw [hcons, if_neg hc, ih (fun d hd => h d (List.mem_cons_of_mem _ hd))]

theorem mem_squashGo {c : Char} {s : Name} {b : Bool}
    (h : c ∈ squashSpacesGo s b) : c ∈ s ∨ c = '-' := by
  induction s generalizing b with
  | nil => simp [squashSpacesGo] at h
  | cons d rest ih =>
    by_cases hd : pySpace d = true
    · cases b with
      | true =>
        simp only [squashSpacesGo, if_pos hd, if_pos rfl] at h
        rcases ih h with h1 | h1
        · exact Or.inl (List.mem_cons_of_mem _ h1)
        · exact Or.inr h1
      | false =>
        simp only [squashSpacesGo, if_pos hd,
          if_neg Bool.false_ne_true] at h
        rcases List.mem_cons.mp h with h1 | h1
        · exact Or.inr h1
        · rcases ih h1 with h2 | h2
          · exact Or.inl (List.mem_cons_of_mem _ h2)
          · exact Or.inr h2
    · simp only [squashSpacesGo, if_neg hd] at h
      rcases List.mem_cons.mp h with h1 | h1
      · exact Or.inl (h1 ▸ List.mem_cons_self _ _)
      · rcases ih h1 with h2 | h2
        · exact Or.inl (List.mem_cons_of_mem _ h2)
        · exact Or.inr h2

theorem takeWhile_all {p : Char → Bool} {l : Name}
    (h : ∀ c ∈ l, p c = true) : l.takeWhile p = l := by
  induction l with
  | nil => rfl
  | cons c rest ih =>
    rw [List.takeWhile_cons, if_pos (h c (List.mem_cons_self _ _))]
    rw [ih (fun d hd => h d (List.mem_cons_of_mem _ hd))]

theorem takeWhile_append_stop {p : Char → Bool} {l1 : Name} (x : Char)
    (l2 : Name) (h1 : ∀ c ∈ l1, p c = true) (hx : p x = false) :
    (l1 ++ x :: l2).takeWhile p = l1 := by
  induction l1 with
  | nil =>
    simp only [List.nil_append, List.takeWhile_cons, hx]
    rfl
  | cons c rest ih =>
    rw [List.cons_append, List.takeWhile_cons,
      if_pos (h1 c (List.mem_cons_self _ _))]
    rw [ih (fun d hd => h1 d (List.mem_cons_of_mem _ hd))]

theorem dropWhile_append_stop {p : Char → Bool} {l1 : Name} (x : Char)
    (l2 : Name) (h1 : ∀ c ∈ l1, p c = true) (hx : p x = false) :
    (l1 ++ x :: l2).dropWhile p = x :: l2 := by
  induction l1 with
  | nil =>
    simp only [List.nil_append, List.dropWhile_cons, hx]
    rfl
  | cons c rest ih =>
    rw [List.cons_append, List.dropWhile_cons,
      if_pos (h1 c (List.mem_cons_self _ _))]
    exact ih (fun d hd => h1 d (List.mem_cons_of_mem _ hd))

theorem head_dropWhile_false {p : Char → Bool} {l : Name} {x : Char}
    {xs : Name} (h : l.dropWhile p = x :: xs) : p x = false := by
  induction l with
  | nil => exact absurd h (by simp)
  | cons c rest ih =>
    rw [List.dropWhile_cons] at h
    by_cases hc : p c = true
    · rw [if_pos hc] at h
      exact ih h
    · rw [if_neg hc] at h
      cases h
      exact Bool.eq_false_iff.mpr hc

theorem extChar_iff {c : Char} : extChar c = true ↔ c ≠ '.' ∧ c ≠ '/' := by
  simp [extChar, bne_iff_ne]

theorem extChar_false_iff {c : Char} :
    extChar c = false ↔ c = '.' ∨ c = '/' := by
  rw [← Bool.not_eq_true, extChar_iff]
  tauto

theorem splitext_join (s : Name) : (splitext s).1 ++ (splitext s).2 = s := by
  unfold splitext splitextAux
  cases hd : s.reverse.dropWhile extChar with
  | nil => simp
  | cons d before =>
    have hsplit := List.takeWhile_append_dropWhile extChar s.reverse
    rw [hd] at hsplit
    dsimp only
    split_ifs with h
    · obtain ⟨h1, -⟩ := h
      subst h1
      show before.reverse ++ '.' :: (s.reverse.takeWhile extChar).reverse = s
      calc before.reverse ++ '.' :: (s.reverse.takeWhile extChar).reverse
          = ((s.reverse.takeWhile extChar) ++ '.' :: before).reverse := by
            simp [List.reverse_append]
        _ = s := by rw [hsplit, List.reverse_reverse]
    · simp

theorem splitext_of_clean_append {a b : Name} (ha1 : a ≠ [])
    (ha2 : ∀ c ∈ a, extChar c = true) (hb : ∀ c ∈ b, extChar c = true) :
    splitext (a ++ '.' :: b) = (a, '.' :: b) := by
  unfold splitext
  have hrev : (a ++ '.' :: b).reverse = b.reverse ++ '.' :: a.reverse := by
    simp [List.reverse_append]
  have hdot : extChar '.' = false := rfl
  have hbrev : ∀ c ∈ b.reverse, extChar c = true :=
    fun c hc => hb c (List.mem_reverse.mp hc)
  have htW : (b.reverse ++ '.' :: a.reverse).takeWhile extChar = b.reverse :=
    takeWhile_append_stop _ _ hbrev hdot
  have hdW : (b.reverse ++ '.' :: a.reverse).dropWhile extChar =
      '.' :: a.reverse :=
    dropWhile_append_stop _ _ hbrev hdot
  rw [hrev, htW, hdW]
  unfold splitextAux
  dsimp only
  rw [if_pos]
  · simp
  · refine ⟨rfl, ?_⟩
    have hta : a.reverse.takeWhile (fun c => c != '/') = a.reverse := by
      apply takeWhile_all
      intro c hc
      have := (extChar_iff.mp (ha2 c (List.mem_reverse.mp hc))).2
      simpa [bne_iff_ne] using this
    rw [hta]
    rw [List.any_eq_true]
    obtain ⟨x, hx⟩ := List.exists_mem_of_ne_nil a ha1
    refine ⟨x, List.mem_reverse.mpr hx, ?_⟩
    have := (extChar_iff.mp (ha2 x hx)).1
    simpa [bne_iff_ne] using this

theorem splitext_no_stop {a : Name} (h : ∀ c ∈ a, extChar c = true) :
    splitext a = (a, []) := by
  unfold splitext
  have hd : a.reverse.dropWhile extChar = [] :=
    List.dropWhile_eq_nil_iff.mpr (fun c hc => h c (List.mem_reverse.mp hc))
  rw [hd]
  rfl

theorem splitext_ext_shape (s : Name) :
    (splitext s).2 = [] ∨
      ∃ t, (splitext s).2 = '.' :: t ∧ ∀ c ∈ t, extChar c = true := by
  unfold splitext splitextAux
  cases hd : s.reverse.dropWhile extChar with
  | nil => exact Or.inl rfl
  | cons d before =>
    dsimp only
    split_ifs with h
    · refine Or.inr ⟨(s.reverse.takeWhile extChar).reverse, rfl, ?_⟩
      intro c hc
      exact List.mem_takeWhile_imp (List.mem_reverse.mp hc)
    · exact Or.inl rfl

theorem splitext_leading_dot {t : Name} (h : ∀ c ∈ t, c ≠ '.') :
    splitext ('.' :: t) = ('.' :: t, []) := by
  unfold splitext
  cases hd : ('.' :: t).reverse.dropWhile extChar with
  | nil => rfl
  | cons d before =>
    have hsplit := List.takeWhile_append_dropWhile extChar ('.' :: t).reverse
    rw [hd] at hsplit
    have hdp : extChar d = false := head_dropWhile_false hd
    rcases extChar_false_iff.mp hdp with h1 | h1
    · subst h1
      rcases List.eq_nil_or_concat before with hb | ⟨bs, x, hbx⟩
      · subst hb
        unfold splitextAux
        dsimp only
        rw [if_neg (by simp)]
      · exfalso
        subst hbx
        rw [List.reverse_cons] at hsplit
        have heq : ((('.' :: t).reverse.takeWhile extChar) ++ '.' :: bs) ++
            [x] = t.reverse ++ ['.'] := by
          rw [← hsplit, List.reverse_cons, List.concat_eq_append]
          simp [List.append_assoc]
        obtain ⟨hleft, -⟩ := List.append_inj' heq rfl
        have : ('.' : Char) ∈ t.reverse := by
          rw [← hleft]
          exact List.mem_append_right _ (List.mem_cons_self _ _)
        exact h '.' (List.mem_reverse.mp this) rfl
    · subst h1
      unfold splitextAux
      dsimp only
      rw [if_neg (by simp)]

theorem isCleanChar_props {c : Char} (h : isCleanChar c = true) :
    c.toNat < 0xC0 ∧ pySpace c = false ∧ isAllowedF c = true ∧
      ¬(65 ≤ c.toNat ∧ c.toNat ≤ 90) ∧ c ≠ '.' ∧ c ≠ '/' := by
  simp only [isCleanChar, decide_eq_true_eq] at h
  refine ⟨by omega, ?_, ?_, by omega, ?_, ?_⟩
  · simp only [pySpace, decide_eq_false_iff_not]
    omega
  · simp only [isAllowedF, decide_eq_true_eq]
    omega
  · intro he
    have : c.toNat = 46 := by rw [he]; rfl
    omega
  · intro he
    have : c.toNat = 47 := by rw [he]; rfl
    omega

theorem isCleanUChar_props {c : Char} (h : isCleanUChar c = true) :
    c.toNat < 0xC0 ∧ pySpace c = false ∧ isAllowedU c = true ∧
      ¬(65 ≤ c.toNat ∧ c.toNat ≤ 90) ∧ c ≠ '%' := by
  simp only [isCleanUChar, decide_eq_true_eq] at h
  refine ⟨by omega, ?_, ?_, by omega, ?_⟩
  · simp only [pySpace, decide_eq_false_iff_not]
    omega
  · simp only [isAllowedU, decide_eq_true_eq]
    omega
  · intro he
    have : c.toNat = 37 := by rw [he]; rfl
    omega

theorem nfdChar_ascii {c : Char} (h : c.toNat < 0xC0) : nfdChar c = [c] := by
  unfold nfdChar
  exact if_pos h

theorem combiningMark_ascii {c : Char} (h : c.toNat < 0x300) :
    combiningMark c = false := by
  simp only [combiningMark, decide_eq_false_iff_not]
  omega

theorem remove_accents_ascii {s : Name} (h : ∀ c ∈ s, c.toNat < 0xC0) :
    remove_accents s = s := by
  unfold remove_accents
  have h1 : s.flatMap nfdChar = s := by
    induction s with
    | nil => rfl
    | cons c rest ih =>
      have hc := h c (List.mem_cons_self _ _)
      simp only [List.flatMap_cons, nfdChar_ascii hc, List.singleton_append,
        List.cons.injEq, true_and]
      exact ih (fun d hd => h d (List.mem_cons_of_mem _ hd))
  rw [h1]
  rw [List.filter_eq_self]
  intro c hc
  have := combiningMark_ascii (c := c) (by have := h c hc; omega)
  simp [this]

theorem clean_stem_chars {c : Char} {s : Name} (h : c ∈ clean_stem s) :
    isCleanChar c = true := by
  unfold clean_stem py_lower at h
  obtain ⟨d, hd, rfl⟩ := List.mem_map.mp h
  have h1 := mem_stripHyphens hd
  have h2 : d ∈ (squashSpaces (remove_accents s)).filter isAllowedF :=
    mem_collapseGo h1
  exact isCleanChar_lowerChar (List.mem_filter.mp h2).2

theorem clean_stem_noDouble (s : Name) :
    noDoubleHyphen (clean_stem s) = true :=
  noDouble_py_lower (noDouble_stripHyphens (noDouble_collapseGo _ false))

theorem clean_stem_headNot (s : Name) :
    headNotHyphen (clean_stem s) = true :=
  headNot_py_lower (headNot_stripHyphens _)

theorem clean_stem_lastNot (s : Name) :
    lastNotHyphen (clean_stem s) = true :=
  lastNot_py_lower (lastNot_stripHyphens _)

theorem clean_stem_fix {s : Name} (hc : ∀ c ∈ s, isCleanChar c = true)
    (hnd : noDoubleHyphen s = true) (hh : headNotHyphen s = true)
    (hl : lastNotHyphen s = true) : clean_stem s = s := by
  unfold clean_stem
  rw [remove_accents_ascii (fun c h => (isCleanChar_props (hc c h)).1)]
  rw [show squashSpaces s = s from
    squashGo_fix (fun c h => (isCleanChar_props (hc c h)).2.1)]
  rw [List.filter_eq_self.mpr (fun c h => (isCleanChar_props (hc c h)).2.2.1)]
  rw [show collapseHyphens s = s from
    collapseGo_fix s false (fun hb => absurd hb (by simp)) hnd]
  rw [stripHyphens_fix hh hl]
  exact py_lower_fix (fun c h => Or.inl (hc c h))

theorem clean_stem_idem (s : Name) :
    clean_stem (clean_stem s) = clean_stem s :=
  clean_stem_fix (fun _ h => clean_stem_chars h) (clean_stem_noDouble s)
    (clean_stem_headNot s) (clean_stem_lastNot s)

theorem clean_filename_def (s : Name) :
    clean_filename s = clean_stem (splitext s).1 ++ (splitext s).2 := rfl

theorem clean_stem_extChar {s : Name} {c : Char}
    (h : c ∈ clean_stem s) : extChar c = true := by
  have hp := isCleanChar_props (clean_stem_chars h)
  exact extChar_iff.mpr ⟨hp.2.2.2.2.1, hp.2.2.2.2.2⟩

theorem clean_filename_idem {s : Name}
    (h : clean_stem (splitext s).1 ≠ [] ∨ (splitext s).2 = []) :
    clean_filename (clean_filename s) = clean_filename s := by
  rcases splitext_ext_shape s with he | ⟨t, he, ht⟩
  · rw [clean_filename_def s, he, List.append_nil]
    have hsp : splitext (clean_stem (splitext s).1) =
        (clean_stem (splitext s).1, []) :=
      splitext_no_stop (fun c hcm => clean_stem_extChar hcm)
    rw [clean_filename_def, hsp]
    simp only [List.append_nil]
    exact clean_stem_idem _
  · have hst : clean_stem (splitext s).1 ≠ [] := by
      rcases h with h1 | h1
      · exact h1
      · rw [he] at h1
        exact absurd h1 (by simp)
    rw [clean_filename_def s, he]
    have hsp : splitext (clean_stem (splitext s).1 ++ '.' :: t) =
        (clean_stem (splitext s).1, '.' :: t) :=
      splitext_of_clean_append hst (fun c hcm => clean_stem_extChar hcm) ht
    rw [clean_filename_def, hsp]
    rw [clean_stem_idem]

theorem unquoteGo_no_pct : ∀ (f : Nat) (s : Name), s.length ≤ f →
    (∀ c ∈ s, c ≠ '%') → unquoteGo f s [] = s := by
  intro f
  induction f with
  | zero =>
    intro s hs _
    have : s = [] := List.eq_nil_of_length_eq_zero (Nat.le_zero.mp hs)
    subst this
    rfl
  | succ f ih =>
    intro s hs h
    cases s with
    | nil => rfl
    | cons c rest =>
      have hc : ¬ (c = '%') := h c (List.mem_cons_self _ _)
      have hlen : rest.length ≤ f := by
        simp only [List.length_cons] at hs
        omega
      simp only [unquoteGo, if_neg hc]
      rw [ih rest hlen (fun d hd => h d (List.mem_cons_of_mem _ hd))]
      rfl

theorem unquote_no_pct {s : Name} (h : ∀ c ∈ s, c ≠ '%') :
    unquote s = s :=
  unquoteGo_no_pct s.length s le_rfl h

theorem clean_url_chars {c : Char} {s : Name} (h : c ∈ clean_url s) :
    isCleanUChar c = true := by
  unfold clean_url clean_special_characters py_lower at h
  obtain ⟨d, hd, rfl⟩ := List.mem_map.mp h
  have h1 := mem_stripHyphens hd
  have h2 : d ∈ (squashSpaces (remove_accents (unquote s))).filter
      isAllowedU := mem_collapseGo h1
  exact isCleanUChar_lowerChar (List.mem_filter.mp h2).2

theorem clean_url_noDouble (s : Name) :
    noDoubleHyphen (clean_url s) = true :=
  noDouble_py_lower (noDouble_stripHyphens (noDouble_collapseGo _ false))

theorem clean_url_headNot (s : Name) :
    headNotHyphen (clean_url s) = true :=
  headNot_py_lower (headNot_stripHyphens _)

theorem clean_url_lastNot (s : Name) :
    lastNotHyphen (clean_url s) = true :=
  lastNot_py_lower (lastNot_stripHyphens _)

theorem clean_url_fix {s : Name} (hc : ∀ c ∈ s, isCleanUChar c = true)
    (hnd : noDoubleHyphen s = true) (hh : headNotHyphen s = true)
    (hl : lastNotHyphen s = true) : clean_url s = s := by
  unfold clean_url
  rw [unquote_no_pct (fun c h => (isCleanUChar_props (hc c h)).2.2.2.2)]
  rw [remove_accents_ascii (fun c h => (isCleanUChar_props (hc c h)).1)]
  unfold clean_special_characters
  rw [show squashSpaces s = s from
    squashGo_fix (fun c h => (isCleanUChar_props (hc c h)).2.1)]
  rw [List.filter_eq_self.mpr
    (fun c h => (isCleanUChar_props (hc c h)).2.2.1)]
  rw [show collapseHyphens s = s from
    collapseGo_fix s false (fun hb => absurd hb (by simp)) hnd]
  rw [stripHyphens_fix hh hl]
  exact py_lower_fix (fun c h => Or.inr (hc c h))

theorem clean_url_idem (s : Name) : clean_url (clean_url s) = clean_url s :=
  clean_url_fix (fun _ h => clean_url_chars h) (clean_url_noDouble s)
    (clean_url_headNot s) (clean_url_lastNot s)

theorem perform_go_count (entries : List RenameEntry) (b : Bool)
    (fs bk : List Name) (succ : List RenameResult)
    (errs : List ApplyError) :
    ((perform_renames_go entries b fs bk succ errs).successes).length +
      ((perform_renames_go entries b fs bk succ errs).errors).length =
      succ.length + errs.length + entries.length := by
  induction entries generalizing fs bk succ errs with
  | nil => simp [perform_renames_go]
  | cons e rest ih =>
    unfold perform_renames_go
    split_ifs with h1 h2 <;>
      (rw [ih]
       simp only [List.length_append, List.length_cons, List.length_nil]
       omega)

theorem perform_go_backup (entries : List RenameEntry) (b : Bool)
    (fs bk : List Name) (succ : List RenameResult)
    (errs : List ApplyError) :
    (perform_renames_go entries b fs bk succ errs).backupCreated = b := by
  induction entries generalizing fs bk succ errs with
  | nil => rfl
  | cons e rest ih =>
    unfold perform_renames_go
    split_ifs with h1 h2 <;> exact ih _ _ _ _

theorem perform_count (fs : List Name) (entries : List RenameEntry)
    (b : Bool) :
    ((perform_renames fs entries b).successes).length +
      ((perform_renames fs entries b).errors).length = entries.length := by
  unfold perform_renames
  split_ifs with h
  · subst h
    rfl
  · simpa using perform_go_count entries b fs [] [] []

theorem perform_empty (fs : List Name) (b : Bool) :
    perform_renames fs [] b = ApplyResult.mk fs false [] [] [] := rfl

theorem perform_backupCreated {entries : List RenameEntry}
    (h : entries ≠ []) (fs : List Name) (b : Bool) :
    (perform_renames fs entries b).backupCreated = b := by
  unfold perform_renames
  rw [if_neg h]
  exact perform_go_backup entries b fs [] [] []

theorem create_rename_map_clean {refs phys : List Name}
    (h1 : ∀ f ∈ refs, clean_filename f = f)
    (h2 : ∀ f ∈ phys, clean_filename f = f) :
    create_rename_map refs phys = [] := by
  unfold create_rename_map
  have e1 : refs.filter (fun r => decide (r ∈ phys) &&
      decide (clean_filename r ≠ r)) = [] := by
    rw [List.filter_eq_nil_iff]
    intro r hr
    simp [h1 r hr]
  rw [e1]
  dsimp only [List.map_nil]
  have e2 : phys.filter (fun f => decide (clean_filename f ≠ f) &&
      decide (∀ e ∈ ([] : List RenameEntry), e.old_name ≠ f)) = [] := by
    rw [List.filter_eq_nil_iff]
    intro f hf
    simp [h2 f hf]
  rw [e2]
  rfl

theorem run_model_clean {refs : List Name} {st : SiteState} {b : Bool}
    (h1 : ∀ f ∈ refs, clean_filename f = f)
    (h2 : ∀ f ∈ st.fs, clean_filename f = f) :
    run_model refs st b = (st, false) := by
  unfold run_model
  rw [create_rename_map_clean h1 h2]
  rfl

theorem isPrefixOf_iff_ex {p s : Name} :
    p.isPrefixOf s = true ↔ ∃ t, s = p ++ t := by
  induction p generalizing s with
  | nil => simp [List.isPrefixOf]
  | cons a p2 ih =>
    cases s with
    | nil => simp [List.isPrefixOf]
    | cons b s2 =>
      simp only [List.isPrefixOf, Bool.and_eq_true, beq_iff_eq, ih,
        List.cons_append, List.cons.injEq]
      constructor
      · rintro ⟨rfl, t, rfl⟩
        exact ⟨t, rfl, rfl⟩
      · rintro ⟨t, rfl, rfl⟩
        exact ⟨rfl, t, rfl⟩

theorem hasSubstring_iff {pat s : Name} :
    hasSubstring pat s = true ↔ occursIn pat s := by
  unfold occursIn
  induction s with
  | nil =>
    simp only [hasSubstring, List.isEmpty_iff]
    constructor
    · rintro rfl
      exact ⟨[], [], rfl⟩
    · rintro ⟨a, b, hab⟩
      rcases List.append_eq_nil.mp (List.append_eq_nil.mp hab.symm).1
        with ⟨-, h2⟩
      exact h2
  | cons c rest ih =>
    simp only [hasSubstring, Bool.or_eq_true, isPrefixOf_iff_ex, ih]
    constructor
    · rintro (⟨t, ht⟩ | ⟨a, b, hab⟩)
      · exact ⟨[], t, by simpa using ht⟩
      · exact ⟨c :: a, b, by simp [hab]⟩
    · rintro ⟨a, b, hab⟩
      cases a with
      | nil => exact Or.inl ⟨b, by simpa using hab⟩
      | cons x a2 =>
        injection hab with h1 h2
        exact Or.inr ⟨a2, b, h2⟩

theorem not_occursIn_nil {p : Char} {pt : Name} :
    ¬ occursIn (p :: pt) [] := by
  rintro ⟨a, b, hab⟩
  rcases List.append_eq_nil.mp (List.append_eq_nil.mp hab.symm).1
    with ⟨-, h2⟩
  exact List.cons_ne_nil _ _ h2

theorem intercalate_single (sep x : Name) :
    List.intercalate sep [x] = x := by
  simp [List.intercalate]

theorem intercalate_cons_ne {sep x : Name} {l : List Name} (h : l ≠ []) :
    List.intercalate sep (x :: l) =
      x ++ sep ++ List.intercalate sep l := by
  cases l with
  | nil => exact absurd rfl h
  | cons y ys => simp [List.intercalate, List.append_assoc]

theorem replGo_succ (f : Nat) (p : Char) (pt repl : Name) (c : Char)
    (rest : Name) :
    replGo (f + 1) p pt repl (c :: rest) =
      if (p :: pt).isPrefixOf (c :: rest) then
        repl ++ replGo f p pt repl (rest.drop pt.length)
      else c :: replGo f p pt repl rest := rfl

theorem replGo_spec : ∀ (f : Nat) (s : Name) (p : Char) (pt repl : Name),
    s.length ≤ f →
    ∃ chunks : List Name, chunks ≠ [] ∧
      (∀ ch ∈ chunks, ¬ occursIn (p :: pt) ch) ∧
      s = List.intercalate (p :: pt) chunks ∧
      replGo f p pt repl s = List.intercalate repl chunks := by
  intro f
  induction f with
  | zero =>
    intro s p pt repl hs
    have hnil : s = [] := List.eq_nil_of_length_eq_zero (Nat.le_zero.mp hs)
    subst hnil
    refine ⟨[[]], by simp, fun ch hch => by
      rcases List.mem_singleton.mp hch with rfl
      exact not_occursIn_nil, by rw [intercalate_single], ?_⟩
    rw [intercalate_single]
    rfl
  | succ f ih =>
    intro s p pt repl hs
    cases s with
    | nil =>
      refine ⟨[[]], by simp, fun ch hch => by
        rcases List.mem_singleton.mp hch with rfl
        exact not_occursIn_nil, by rw [intercalate_single], ?_⟩
      rw [intercalate_single]
      rfl
    | cons c rest =>
      by_cases hp : (p :: pt).isPrefixOf (c :: rest) = true
      · obtain ⟨t, ht⟩ := isPrefixOf_iff_ex.mp hp
        have hrest : rest = pt ++ t := by
          have h2 := congrArg List.tail ht
          simpa using h2
        have hdrop : rest.drop pt.length = t := by
          rw [hrest, List.drop_left]
        have hlen : t.length ≤ f := by
          have := congrArg List.length hrest
          simp only [List.length_append] at this
          simp only [List.length_cons] at hs
          omega
        obtain ⟨chunks, hne, hfree, hdec, hout⟩ := ih t p pt repl hlen
        refine ⟨[] :: chunks, by simp, ?_, ?_, ?_⟩
        · intro ch hch
          rcases List.mem_cons.mp hch with rfl | hch2
          · exact not_occursIn_nil
          · exact hfree ch hch2
        · rw [intercalate_cons_ne hne, ← hdec]
          simpa using ht
        · rw [replGo_succ, if_pos hp, hdrop, hout, intercalate_cons_ne hne]
          simp
      · have hlen : rest.length ≤ f := by
          simp only [List.length_cons] at hs
          omega
        obtain ⟨chunks, hne, hfree, hdec, hout⟩ := ih rest p pt repl hlen
        cases chunks with
        | nil => exact absurd rfl hne
        | cons ch0 cht =>
          refine ⟨(c :: ch0) :: cht, by simp, ?_, ?_, ?_⟩
          · intro ch hch
            rcases List.mem_cons.mp hch with rfl | hch2
            · rintro ⟨a, b, hab⟩
              cases a with
              | nil =>
                simp only [List.nil_append] at hab
                apply hp
                rw [isPrefixOf_iff_ex]
                cases cht with
                | nil =>
                  rw [intercalate_single] at hdec
                  refine ⟨b, ?_⟩
                  rw [hdec]
                  exact hab
                | cons ch1 cht2 =>
                  refine ⟨b ++ (p :: pt) ++
                    List.intercalate (p :: pt) (ch1 :: cht2), ?_⟩
                  rw [hdec, intercalate_cons_ne (List.cons_ne_nil _ _)]
                  calc c :: (ch0 ++ (p :: pt) ++
                        List.intercalate (p :: pt) (ch1 :: cht2))
                      = (c :: ch0) ++ ((p :: pt) ++
                        List.intercalate (p :: pt) (ch1 :: cht2)) := by
                        simp [List.append_assoc]
                    _ = ((p :: pt) ++ b) ++ ((p :: pt) ++
                        List.intercalate (p :: pt) (ch1 :: cht2)) := by
                        rw [hab]
                    _ = (p :: pt) ++ (b ++ (p :: pt) ++
                        List.intercalate (p :: pt) (ch1 :: cht2)) := by
                        simp [List.append_assoc]
              | cons x a2 =>
                injection hab with h1 h2
                exact hfree ch0 (List.mem_cons_self _ _) ⟨a2, b, h2⟩
            · exact hfree ch (List.mem_cons_of_mem _ hch2)
          · cases cht with
            | nil =>
              rw [intercalate_single] at hdec
              rw [intercalate_single, hdec]
            | cons ch1 cht2 =>
              rw [intercalate_cons_ne (List.cons_ne_nil _ _)] at hdec
              rw [intercalate_cons_ne (List.cons_ne_nil _ _), hdec]
              simp [List.append_assoc]
          · rw [replGo_succ, if_neg hp, hout]
            cases cht with
            | nil =>
              rw [intercalate_single, intercalate_single]
            | cons ch1 cht2 =>
              rw [intercalate_cons_ne (List.cons_ne_nil _ _),
                intercalate_cons_ne (List.cons_ne_nil _ _)]
              simp [List.append_assoc]

theorem replaceAll_spec (s : Name) (p : Char) (pt repl : Name) :
    ∃ chunks : List Name, chunks ≠ [] ∧
      (∀ ch ∈ chunks, ¬ occursIn (p :: pt) ch) ∧
      s = List.intercalate (p :: pt) chunks ∧
      replaceAll s (p :: pt) repl = List.intercalate repl chunks :=
  replGo_spec s.length s p pt repl le_rfl

theorem replaceAll_occurs_two {t : Name} {p : Char} {pt : Name}
    (repl : Name) (h : occursIn (p :: pt) t) :
    ∃ chunks : List Name, 2 ≤ chunks.length ∧
      (∀ ch ∈ chunks, ¬ occursIn (p :: pt) ch) ∧
      t = List.intercalate (p :: pt) chunks ∧
      replaceAll t (p :: pt) repl = List.intercalate repl chunks := by
  obtain ⟨chunks, hne, hfree, hdec, hout⟩ := replaceAll_spec t p pt repl
  refine ⟨chunks, ?_, hfree, hdec, hout⟩
  cases chunks with
  | nil => exact absurd rfl hne
  | cons ch0 cht =>
    cases cht with
    | nil =>
      rw [intercalate_single] at hdec
      exact absurd (hdec ▸ h) (hfree ch0 (List.mem_cons_self _ _))
    | cons ch1 cht2 =>
      simp only [List.length_cons]
      omega

theorem update_index_single (content : Name) (r : RenameResult) :
    update_index content [r] =
      replaceAll (replaceAll content (hrefDq r.old) (hrefDq r.new))
        (hrefSq r.old) (hrefSq r.new) := rfl

theorem loc_apply_go_flag_true (rs : List RenameResult) (t : Name) :
    (loc_apply_go rs t true).2 = true := by
  induction rs generalizing t with
  | nil => rfl
  | cons r rest ih =>
    unfold loc_apply_go
    split_ifs with h
    · exact ih _
    · exact ih _

theorem loc_apply_go_no_match {rs : List RenameResult} {t : Name}
    (h : ∀ r ∈ rs, hasSubstring r.old t = false) (u : Bool) :
    loc_apply_go rs t u = (t, u) := by
  induction rs with
  | nil => rfl
  | cons r rest ih =>
    unfold loc_apply_go
    rw [if_neg (by simp [h r (List.mem_cons_self _ _)])]
    exact ih (fun r2 h2 => h r2 (List.mem_cons_of_mem _ h2))

theorem loc_apply_go_match (rs : List RenameResult) (t : Name) :
    ∀ u, (∃ r ∈ rs, hasSubstring r.old t = true) →
      (loc_apply_go rs t u).2 = true := by
  induction rs with
  | nil =>
    intro u h
    rcases h with ⟨r, hr, -⟩
    simp at hr
  | cons r rest ih =>
    intro u h
    unfold loc_apply_go
    split_ifs with hg
    · exact loc_apply_go_flag_true _ _
    · obtain ⟨r2, hr2, hs2⟩ := h
      rcases List.mem_cons.mp hr2 with heq | hr3
      · subst heq
        exact absurd hs2 (by simpa using hg)
      · exact ih u ⟨r2, hr3, hs2⟩

theorem loc_apply_go_flag_false (rs : List RenameResult) :
    ∀ (t : Name) (u : Bool), (loc_apply_go rs t u).2 = false →
      u = false ∧ (loc_apply_go rs t u).1 = t := by
  induction rs with
  | nil =>
    intro t u h
    exact ⟨h, rfl⟩
  | cons r rest ih =>
    intro t u h
    unfold loc_apply_go at h ⊢
    split_ifs at h ⊢ with hg
    · have := loc_apply_go_flag_true rest (replaceAll t r.old r.new)
      rw [h] at this
      exact absurd this (by simp)
    · exact ih t u h

theorem sitemap_pass_go_snd (rs : List RenameResult) (locs : List Name) :
    ∀ acc u, (sitemap_pass_go rs locs acc u).2 =
      (u || locs.any (fun t => (loc_apply rs t).2)) := by
  induction locs with
  | nil =>
    intro acc u
    simp [sitemap_pass_go]
  | cons t rest ih =>
    intro acc u
    unfold sitemap_pass_go
    rw [ih]
    simp [Bool.or_assoc]

theorem sitemap_pass_go_fst (rs : List RenameResult) (locs : List Name) :
    ∀ acc u, (sitemap_pass_go rs locs acc u).1 =
      acc ++ locs.map (fun t => (loc_apply rs t).1) := by
  induction locs with
  | nil =>
    intro acc u
    simp [sitemap_pass_go]
  | cons t rest ih =>
    intro acc u
    unfold sitemap_pass_go
    rw [ih]
    simp

theorem sitemap_pass_snd_iff (locs : List Name) (rs : List RenameResult) :
    (sitemap_pass locs rs).2 = true ↔
      ∃ t ∈ locs, ∃ r ∈ rs, occursIn r.old t := by
  unfold sitemap_pass
  rw [sitemap_pass_go_snd]
  simp only [Bool.false_or, List.any_eq_true]
  constructor
  · rintro ⟨t, ht, h2⟩
    by_cases hm : ∃ r ∈ rs, hasSubstring r.old t = true
    · obtain ⟨r, hr, hs2⟩ := hm
      exact ⟨t, ht, r, hr, hasSubstring_iff.mp hs2⟩
    · exfalso
      have hall : ∀ r ∈ rs, hasSubstring r.old t = false := by
        intro r hr
        by_contra hb
        exact hm ⟨r, hr, by simpa using hb⟩
      have := loc_apply_go_no_match hall false
      unfold loc_apply at h2
      rw [this] at h2
      simp at h2
  · rintro ⟨t, ht, r, hr, hocc⟩
    exact ⟨t, ht,
      loc_apply_go_match rs t false ⟨r, hr, hasSubstring_iff.mpr hocc⟩⟩

theorem sitemap_pass_unchanged {locs : List Name} {rs : List RenameResult}
    (h : (sitemap_pass locs rs).2 = false) :
    (sitemap_pass locs rs).1 = locs := by
  unfold sitemap_pass at h ⊢
  rw [sitemap_pass_go_fst]
  rw [sitemap_pass_go_snd] at h
  simp only [Bool.false_or] at h
  have hall : ∀ t ∈ locs, (loc_apply rs t).2 = false := by
    intro t ht
    by_contra hb
    have hb2 : (loc_apply rs t).2 = true := by simpa using hb
    have : locs.any (fun t => (loc_apply rs t).2) = true :=
      List.any_eq_true.mpr ⟨t, ht, hb2⟩
    rw [this] at h
    simp at h
  have : ∀ t ∈ locs, (loc_apply rs t).1 = t := fun t ht =>
    (loc_apply_go_flag_false rs t false (hall t ht)).2
  rw [List.map_congr_left this]
  simp

theorem update_sitemap_flag (ns pl : List Name) (rs : List RenameResult) :
    (update_sitemap ns pl rs).2.2 =
      ((sitemap_pass ns rs).2 || (sitemap_pass pl rs).2) := by
  by_cases h : (sitemap_pass ns rs).2 = true
  · simp [update_sitemap, h]
  · have h2 : (sitemap_pass ns rs).2 = false := by simpa using h
    simp [update_sitemap, h2]

theorem update_sitemap_iff (ns pl : List Name) (rs : List RenameResult) :
    (update_sitemap ns pl rs).2.2 = true ↔
      ∃ t ∈ ns ++ pl, ∃ r ∈ rs, occursIn r.old t := by
  rw [update_sitemap_flag]
  simp only [Bool.or_eq_true, sitemap_pass_snd_iff]
  constructor
  · rintro (⟨t, ht, hr⟩ | ⟨t, ht, hr⟩)
    · exact ⟨t, List.mem_append_left _ ht, hr⟩
    · exact ⟨t, List.mem_append_right _ ht, hr⟩
  · rintro ⟨t, ht, hr⟩
    rcases List.mem_append.mp ht with h1 | h1
    · exact Or.inl ⟨t, h1, hr⟩
    · exact Or.inr ⟨t, h1, hr⟩

theorem update_sitemap_unchanged {ns pl : List Name}
    {rs : List RenameResult}
    (h : (update_sitemap ns pl rs).2.2 = false) :
    update_sitemap ns pl rs = (ns, pl, false) := by
  have hflag := update_sitemap_flag ns pl rs
  rw [h] at hflag
  have hboth := (Bool.or_eq_false_iff.mp hflag.symm)
  have hns := hboth.1
  have hpl := hboth.2
  unfold update_sitemap
  rw [if_neg (by simp [hns])]
  dsimp only
  rw [sitemap_pass_unchanged hns, sitemap_pass_unchanged hpl, hpl]


/-- C1 (code bug): with three referenced physical files `Relatório.html`,
`RELATORIO.html`, `Relatorio!.html`, all cleaning to `relatorio.html`,
`check_conflicts` emits one two-element conflict per later collider
(`[f1, f2]` and `[f1, f3]`) and `resolve_conflicts` numbers each pair
independently starting at 2, so the second and the third file are both
assigned `relatorio-2.html`: the resolved plan still contains duplicate
new names, contradicting the claimed conflict-free invariant and the
claimed `stem-2.ext`, `stem-3.ext`, … numbering. -/
theorem c1_conflict_resolution_leaves_duplicates :
    (check_conflicts (create_rename_map c1Files c1Files)).map
        Conflict.conflicting_files =
      [["Relatório.html".toList, "RELATORIO.html".toList],
       ["Relatório.html".toList, "Relatorio!.html".toList]] ∧
    (resolve_conflicts (check_conflicts (create_rename_map c1Files c1Files))
        (create_rename_map c1Files c1Files)).map RenameEntry.new_name =
      ["relatorio.html".toList, "relatorio-2.html".toList,
       "relatorio-2.html".toList] ∧
    ¬ ((resolve_conflicts
        (check_conflicts (create_rename_map c1Files c1Files))
        (create_rename_map c1Files c1Files)).map
        RenameEntry.new_name).Nodup :=
  ⟨by decide, by decide, by decide⟩

/-- C2 counterexample: `clean_filename` is not idempotent.
`clean_filename "!!!.html" = ".html"`, whose stem is empty, and a second
application strips the now-leading dot, giving `"html"`. -/
theorem c2_clean_filename_not_idempotent :
    clean_filename (clean_filename "!!!.html".toList) ≠
      clean_filename "!!!.html".toList := by decide

/-- C2 (amended): `clean_url` is idempotent on every input; and
`clean_filename` is idempotent on every input except those whose cleaned
stem is empty while the extension is nonempty. -/
theorem c2_idempotence_amended :
    (∀ s : Name, clean_url (clean_url s) = clean_url s) ∧
    (∀ s : Name, clean_stem (splitext s).1 ≠ [] ∨ (splitext s).2 = [] →
      clean_filename (clean_filename s) = clean_filename s) :=
  ⟨clean_url_idem, fun _ h => clean_filename_idem h⟩

/-- C2 witness: the amended idempotence at a concrete input with a
nonempty cleaned stem. -/
theorem c2_idempotence_witness :
    clean_filename (clean_filename "Página Principal.html".toList) =
      clean_filename "Página Principal.html".toList :=
  c2_idempotence_amended.2 "Página Principal.html".toList (by decide)

/-- C3 counterexample: for the input `.html`, the output of
`clean_filename` is `html`, which is not any string followed by the
last-dot extension `.html` of the input, because `os.path.splitext`
treats `.html` as an extensionless dotfile: the claim's "split at the
last dot" description fails. -/
theorem c3_last_dot_split_fails :
    ¬ ∃ t : Name, clean_filename ".html".toList =
      t ++ spec_ext_last_dot ".html".toList := by
  rintro ⟨t, ht⟩
  have h1 : clean_filename ".html".toList = "html".toList := by decide
  have h2 : spec_ext_last_dot ".html".toList = ".html".toList := by decide
  rw [h1, h2] at ht
  have h3 := congrArg List.length ht
  rw [List.length_append] at h3
  have h4 : ("html".toList).length = 4 := rfl
  have h5 : (".html".toList).length = 5 := rfl
  rw [h4, h5] at h3
  omega

/-- C3 (amended): for every input, `clean_filename` is the cleaned stem
followed by the extension as computed by `os.path.splitext` (which splits
at the last dot except for dotfile-style names), the two parts
reassemble the input, and the cleaned stem contains only `[a-z0-9-_]`,
does not start or end with a hyphen, and has no two consecutive
hyphens. -/
theorem c3_stem_charset_amended (s : Name) :
    clean_filename s = clean_stem (splitext s).1 ++ (splitext s).2 ∧
    (splitext s).1 ++ (splitext s).2 = s ∧
    (∀ c ∈ clean_stem (splitext s).1, isCleanChar c = true) ∧
    headNotHyphen (clean_stem (splitext s).1) = true ∧
    lastNotHyphen (clean_stem (splitext s).1) = true ∧
    noDoubleHyphen (clean_stem (splitext s).1) = true :=
  ⟨rfl, splitext_join s, fun _ h => clean_stem_chars h,
    clean_stem_headNot _, clean_stem_lastNot _, clean_stem_noDouble _⟩

/-- C3 witness: the charset property applied at a concrete input and
character. -/
theorem c3_stem_charset_witness : isCleanChar 'p' = true :=
  (c3_stem_charset_amended "Página!.html".toList).2.2.1 'p' (by decide)

/-- C4 counterexample: with referenced physical files `Relatório.html`
and `relatorio.html`, the plan contains a single entry, assigning
`Relatório.html` the new name `relatorio.html`; no entry is assigned
`relatorio-2.html`, because the already-clean `relatorio.html` never
enters the rename map and so no conflict is detected. -/
theorem c4_no_suffix_assigned :
    (resolve_conflicts (check_conflicts (create_rename_map c4Files c4Files))
        (create_rename_map c4Files c4Files)).map
      (fun e => (e.old_name, e.new_name)) =
      [("Relatório.html".toList, "relatorio.html".toList)] ∧
    "relatorio-2.html".toList ∉
      (resolve_conflicts (check_conflicts (create_rename_map c4Files
        c4Files)) (create_rename_map c4Files c4Files)).map
        RenameEntry.new_name :=
  ⟨by decide, by decide⟩

/-- C4 (amended): on `[Relatório.html, relatorio.html]` the planner
creates an entry only for `Relatório.html` (new name `relatorio.html`),
`check_conflicts` reports no conflict, and at apply time that single
rename fails with a destination-exists error, leaving the folder
unchanged. -/
theorem c4_plan_amended :
    check_conflicts (create_rename_map c4Files c4Files) = [] ∧
    resolve_conflicts (check_conflicts (create_rename_map c4Files c4Files))
        (create_rename_map c4Files c4Files) =
      [RenameEntry.mk "Relatório.html".toList "relatorio.html".toList
        true] ∧
    perform_renames c4Files
      (resolve_conflicts (check_conflicts (create_rename_map c4Files
        c4Files)) (create_rename_map c4Files c4Files)) false =
      ApplyResult.mk c4Files false [] []
        [ApplyError.destinationExists "relatorio.html".toList] :=
  ⟨by decide, by decide, by decide⟩

/-- C5: the apply step settles every plan entry exactly once — the
number of successes plus the number of recorded errors equals the number
of plan entries, for every folder, plan and backup flag — and in the
concrete three-entry plan whose middle source file is missing, the other
two entries still rename successfully while the missing one is reported
as a source-missing error. -/
theorem c5_partial_failure :
    (∀ (fs : List Name) (entries : List RenameEntry) (b : Bool),
      ((perform_renames fs entries b).successes).length +
        ((perform_renames fs entries b).errors).length = entries.length) ∧
    perform_renames c5Fs c5Plan false =
      ApplyResult.mk ["pagina.html".toList, "acao.html".toList] false []
        [RenameResult.mk "Página.html".toList "pagina.html".toList true,
         RenameResult.mk "Ação.html".toList "acao.html".toList false]
        [ApplyError.sourceMissing "Faltando é.html".toList] :=
  ⟨perform_count, by decide⟩

/-- C6: when every referenced and every physical filename is already
clean, the rename map is empty, and the whole run returns with the state
(folder, index text, sitemap location texts) unchanged and the mutation
phase never entered. -/
theorem c6_noop_run :
    (∀ refs phys : List Name, (∀ f ∈ refs, clean_filename f = f) →
      (∀ f ∈ phys, clean_filename f = f) →
      create_rename_map refs phys = []) ∧
    (∀ (refs : List Name) (st : SiteState) (b : Bool),
      (∀ f ∈ refs, clean_filename f = f) →
      (∀ f ∈ st.fs, clean_filename f = f) →
      run_model refs st b = (st, false)) :=
  ⟨fun _ _ h1 h2 => create_rename_map_clean h1 h2,
   fun _ _ _ h1 h2 => run_model_clean h1 h2⟩

/-- C6 witness: the no-op run at a concrete already-clean state. -/
theorem c6_noop_run_witness :
    run_model ["pagina.html".toList]
      (SiteState.mk ["pagina.html".toList] "x".toList [] []) true =
      (SiteState.mk ["pagina.html".toList] "x".toList [] [], false) :=
  c6_noop_run.2 _ _ _ (by decide) (by decide)

/-- C7: the index rewrite for one successful rename is the literal
substitution of both quote forms of `href="old"`; `replaceAll` (Python
`str.replace`) replaces every occurrence — the input decomposes into
occurrence-free chunks joined by the pattern, and the output is the same
chunks joined by the replacement, with at least two chunks whenever the
pattern occurs; and concretely, renaming `Página.html` to `pagina.html`
rewrites every `href="Página.html"`/`href='Página.html'` in the index
and updates the sitemap location containing `Página.html`. -/
theorem c7_reference_rewrite :
    (∀ (content : Name) (r : RenameResult),
      update_index content [r] =
        replaceAll (replaceAll content (hrefDq r.old) (hrefDq r.new))
          (hrefSq r.old) (hrefSq r.new)) ∧
    (∀ (s pat repl : Name), pat ≠ [] →
      ∃ chunks : List Name, chunks ≠ [] ∧
        (∀ ch ∈ chunks, ¬ occursIn pat ch) ∧
        s = List.intercalate pat chunks ∧
        replaceAll s pat repl = List.intercalate repl chunks) ∧
    (∀ (t pat repl : Name), pat ≠ [] → occursIn pat t →
      ∃ chunks : List Name, 2 ≤ chunks.length ∧
        t = List.intercalate pat chunks ∧
        replaceAll t pat repl = List.intercalate repl chunks) ∧
    update_index c7Index [c7Rename] = c7IndexExpected ∧
    update_sitemap [c7Loc] [] [c7Rename] = ([c7LocExpected], [], true) := by
  refine ⟨fun _ _ => rfl, ?_, ?_, by decide, by decide⟩
  · rintro s pat repl hpat
    cases pat with
    | nil => exact absurd rfl hpat
    | cons p pt => exact replaceAll_spec s p pt repl
  · rintro t pat repl hpat hocc
    cases pat with
    | nil => exact absurd rfl hpat
    | cons p pt =>
      obtain ⟨chunks, h2, -, hdec, hout⟩ := replaceAll_occurs_two repl hocc
      exact ⟨chunks, h2, hdec, hout⟩

/-- C7 witness: the replace-all decomposition at a concrete string. -/
theorem c7_reference_rewrite_witness :
    ∃ chunks : List Name, chunks ≠ [] ∧
      (∀ ch ∈ chunks, ¬ occursIn "a.html".toList ch) ∧
      "x a.html y".toList = List.intercalate "a.html".toList chunks ∧
      replaceAll "x a.html y".toList "a.html".toList "b.html".toList =
        List.intercalate "b.html".toList chunks :=
  c7_reference_rewrite.2.1 "x a.html y".toList "a.html".toList
    "b.html".toList (by decide)

/-- C8: the sitemap is written back iff some successful rename's old
name occurs as a substring of some location text (namespaced or
namespace-free); and when no old name occurs anywhere, the location
texts and the written-back flag are unchanged. -/
theorem c8_sitemap_write_iff :
    (∀ (ns pl : List Name) (rs : List RenameResult),
      ((update_sitemap ns pl rs).2.2 = true ↔
        ∃ t ∈ ns ++ pl, ∃ r ∈ rs, occursIn r.old t)) ∧
    (∀ (ns pl : List Name) (rs : List RenameResult),
      (∀ t ∈ ns ++ pl, ∀ r ∈ rs, ¬ occursIn r.old t) →
      update_sitemap ns pl rs = (ns, pl, false)) := by
  refine ⟨update_sitemap_iff, ?_⟩
  intro ns pl rs h
  apply update_sitemap_unchanged
  by_contra hb
  have hb2 : (update_sitemap ns pl rs).2.2 = true := by simpa using hb
  obtain ⟨t, ht, r, hr, hocc⟩ := (update_sitemap_iff ns pl rs).mp hb2
  exact h t ht r hr hocc

/-- C8 witness: a sitemap left unmodified because no old name occurs. -/
theorem c8_sitemap_write_iff_witness :
    update_sitemap ["https://s/x.html".toList] []
      [RenameResult.mk "a.html".toList "b.html".toList true] =
      (["https://s/x.html".toList], [], false) :=
  c8_sitemap_write_iff.2 _ _ _ (by
    intro t ht r hr
    rw [← hasSubstring_iff]
    fin_cases ht
    fin_cases hr
    decide)

/-- C9: a name whose only dot is the leading one gets an empty extension
from `os.path.splitext`, so `clean_filename ".html" = "html"`; and any
input cleaning to `.html` (empty stem, extension `.html`) yields an
output that is not a fixed point of `clean_filename`. -/
theorem c9_leading_dot_extension :
    (∀ t : Name, (∀ c ∈ t, c ≠ '.') →
      splitext ('.' :: t) = ('.' :: t, [])) ∧
    clean_filename ".html".toList = "html".toList ∧
    (∀ s : Name, clean_filename s = ".html".toList →
      clean_filename (clean_filename s) ≠ clean_filename s) := by
  refine ⟨fun _ ht => splitext_leading_dot ht, by decide, ?_⟩
  intro s h
  rw [h]
  decide

/-- C9 witness: the leading-dot rule and the non-fixed-point consequence
at concrete inputs. -/
theorem c9_leading_dot_extension_witness :
    splitext ('.' :: "html".toList) = ('.' :: "html".toList, []) ∧
    clean_filename (clean_filename "!!!.html".toList) ≠
      clean_filename "!!!.html".toList :=
  ⟨c9_leading_dot_extension.1 "html".toList (by decide),
   c9_leading_dot_extension.2.2 "!!!.html".toList (by decide)⟩

/-- C10: an empty plan returns immediately — folder unchanged, no backup
folder, nothing recorded — regardless of the backup flag; a nonempty
plan with backup requested creates the backup folder before examining
any entry, so the folder exists even when, as in the concrete one-entry
plan with a missing source, every individual rename fails. -/
theorem c10_backup_folder :
    (∀ (fs : List Name) (b : Bool),
      perform_renames fs [] b = ApplyResult.mk fs false [] [] []) ∧
    (∀ (fs : List Name) (entries : List RenameEntry), entries ≠ [] →
      (perform_renames fs entries true).backupCreated = true) ∧
    perform_renames ["b.html".toList]
      [RenameEntry.mk "a.html".toList "c.html".toList true] true =
      ApplyResult.mk ["b.html".toList] true [] []
        [ApplyError.sourceMissing "a.html".toList] :=
  ⟨perform_empty, fun fs _ h => perform_backupCreated h fs true, by decide⟩

/-- C10 witness: backup-folder creation at a concrete nonempty plan. -/
theorem c10_backup_folder_witness :
    (perform_renames ["x.html".toList]
      [RenameEntry.mk "x.html".toList "y.html".toList false]
      true).backupCreated = true :=
  c10_backup_folder.2.1 ["x.html".toList]
    [RenameEntry.mk "x.html".toList "y.html".toList false] (by decide)
